import Mathlib

/-!
# a3-search-engine: the PageDB index and ranker

A shallow embedding of `src/models/PageDB.js` and of the `search` handler of
`src/controllers/HomeController.js`.

Modelling conventions.
* A JavaScript string is a Lean `String`; `===` on strings is equality.
* The `Map` held in `wordToId` is an association list in insertion order
  (`JSMap`); `has`, `get`, `set` and `size` are the operations of that list.
* Word ids and raw frequency scores are natural numbers (the code only ever
  produces `Map.size` values and counters incremented by one).
* Scores after normalisation are exact rationals: every quotient the code forms
  is a quotient of two integer counts (or of a count and the floor `0.00001`).
  `-Infinity`, the value of `Math.max()` without arguments, is `none`.
* `Array.prototype.sort` is the stable sort that ECMAScript 2019 prescribes;
  for a comparator `cmp`, `a` stays in front of `b` when `cmp a b ≤ 0`.
-/

namespace SearchEngine

/-! ## The dictionary: a JavaScript `Map` from words to ids -/

/-- A `Map<string, number>`: its entries in insertion order. -/
structure JSMap where
  entries : List (String × Nat)
deriving DecidableEq

/-- First value stored under key `k` in a list of entries. -/
def lookupEntry (k : String) : List (String × Nat) → Option Nat
  | [] => none
  | (w, v) :: rest => if w = k then some v else lookupEntry k rest

/-- Overwrite the value under `k` in place, or append a new entry. -/
def setEntry (k : String) (v : Nat) : List (String × Nat) → List (String × Nat)
  | [] => [(k, v)]
  | (w, x) :: rest => if w = k then (w, v) :: rest else (w, x) :: setEntry k v rest

/-- The value of `new Map()`. -/
def JSMap.empty : JSMap := ⟨[]⟩

/-- The value of `Map.prototype.get`: `none` is `undefined`. -/
def JSMap.get (m : JSMap) (k : String) : Option Nat := lookupEntry k m.entries

/-- The value of `Map.prototype.has`. -/
def JSMap.has (m : JSMap) (k : String) : Bool := (m.get k).isSome

/-- The map after `Map.prototype.set`. -/
def JSMap.set (m : JSMap) (k : String) (v : Nat) : JSMap := ⟨setEntry k v m.entries⟩

/-- The value of the `size` property. -/
def JSMap.size (m : JSMap) : Nat := m.entries.length

/-! ## Pages and the page database -/

/-- A stored page `{ url, wordIds }`. -/
structure Page where
  url : String
  wordIds : List Nat
deriving DecidableEq

/-- The fields of a `PageDB` instance. -/
structure PageDB where
  wordToId : JSMap
  pages : List Page
deriving DecidableEq

/-- The state after `new PageDB()`. -/
def PageDB.new : PageDB := ⟨JSMap.empty, []⟩

/-- The method `getIdForWord(word)`: the returned id and the state afterwards.
The `has`/`get` pair of the source is the match on `get`. -/
def PageDB.getIdForWord (db : PageDB) (word : String) : Nat × PageDB :=
  match db.wordToId.get word with
  | some id => (id, db)
  | none =>
    let id := db.wordToId.size
    (id, { db with wordToId := db.wordToId.set word id })

/-- Pieces of a character list between the occurrences of `sep`. -/
def splitChars (sep : Char) : List Char → List (List Char)
  | [] => [[]]
  | c :: cs =>
    if c = sep then [] :: splitChars sep cs
    else
      match splitChars sep cs with
      | [] => [[c]]
      | w :: ws => (c :: w) :: ws

/-- The value of `String.prototype.split` for a one-character separator. -/
def jsSplit (s : String) (sep : Char) : List String :=
  (splitChars sep s.data).map String.mk

/-- The callback `word => this.getIdForWord(word)` mapped over an array, left
to right, threading the state. -/
def PageDB.mapGetIdForWord (db : PageDB) : List String → List Nat × PageDB
  | [] => ([], db)
  | w :: ws =>
    let r := db.getIdForWord w
    let rs := PageDB.mapGetIdForWord r.2 ws
    (r.1 :: rs.1, rs.2)

/-- The method `createPage(url, words)`. -/
def PageDB.createPage (db : PageDB) (url words : String) : PageDB :=
  let r := db.mapGetIdForWord (jsSplit words ' ')
  let page : Page := { url := url, wordIds := r.1 }
  { r.2 with pages := r.2.pages ++ [page] }

/-! ## Scoring -/

/-- The method `getFrequencyScore(p, query)`. -/
def PageDB.getFrequencyScore (p : Page) (query : Nat) : Nat :=
  let qws := [query]
  qws.foldl
    (fun score q => p.wordIds.foldl (fun score word => if word = q then score + 1 else score) score)
    0

/-- The value of `Math.max(...scores)`: `none` is `-Infinity`. -/
def mathMaxSpread : List ℚ → Option ℚ
  | [] => none
  | x :: xs =>
    match mathMaxSpread xs with
    | none => some x
    | some m => some (max x m)

/-- The value of `Math.min(...scores)`: `none` is `Infinity`. -/
def mathMinSpread : List ℚ → Option ℚ
  | [] => none
  | x :: xs =>
    match mathMinSpread xs with
    | none => some x
    | some m => some (min x m)

/-- The value of `Math.max(a, b)` where `a` may be `-Infinity`. -/
def mathMax (a : Option ℚ) (b : ℚ) : ℚ :=
  match a with
  | none => b
  | some x => max x b

/-- The literal `0.00001`. -/
def scoreFloor : ℚ := 1 / 100000

/-- The method `normalize(scores, smallIsBetter)`: the array afterwards. -/
def PageDB.normalize (scores : List ℚ) (smallIsBetter : Bool) : List ℚ :=
  if smallIsBetter then
    match mathMinSpread scores with
    | none => scores
    | some min_val => scores.map (fun s => min_val / max s scoreFloor)
  else
    let max_val := mathMaxSpread scores
    let max_val := mathMax max_val scoreFloor
    scores.map (fun s => s / max_val)

/-- An element `{ page, score }` of a result list. -/
structure Result where
  page : Page
  score : ℚ
deriving DecidableEq

/-- The array after `Array.prototype.sort(cmp)`. -/
def jsSort {α : Type} (cmp : α → α → ℚ) (l : List α) : List α :=
  l.insertionSort (fun a b => cmp a b ≤ 0)

/-- The method `query(query)`. -/
def PageDB.query (db : PageDB) (query : Nat) : List Result :=
  let content := db.pages.map (fun p => (PageDB.getFrequencyScore p query : ℚ))
  let content := PageDB.normalize content false
  let result := (db.pages.zip content).filterMap
    (fun ps => if ps.2 > 0 then some { page := ps.1, score := 1.0 * ps.2 } else none)
  jsSort (fun a b => b.score - a.score) result

/-! ## Call sequences -/

/-- A call of one of the two state-changing methods. -/
inductive Op where
  | createPage (url words : String)
  | getIdForWord (word : String)
deriving DecidableEq

/-- The state after one call. -/
def Op.apply (db : PageDB) : Op → PageDB
  | Op.createPage url words => db.createPage url words
  | Op.getIdForWord word => (db.getIdForWord word).2

/-- The state after a sequence of calls, first call first. -/
def PageDB.run (db : PageDB) (ops : List Op) : PageDB := ops.foldl Op.apply db

/-! ## Invariants and auxiliary notions used in the proofs -/

/-- Well-formedness of a state: keys are distinct, the ids are `0 .. size-1` in
insertion order, and every stored word id is below the dictionary size. -/
def DictWF (db : PageDB) : Prop :=
  (db.wordToId.entries.map Prod.fst).Nodup ∧
  db.wordToId.entries.map Prod.snd = List.range db.wordToId.size ∧
  ∀ p ∈ db.pages, ∀ id ∈ p.wordIds, id < db.wordToId.size

/-- The later state only has more entries and more pages, appended at the end. -/
def Grows (db db' : PageDB) : Prop :=
  (∃ more, db'.wordToId.entries = db.wordToId.entries ++ more) ∧
  ∃ more, db'.pages = db.pages ++ more

/-- The divisor that `normalize(scores, false)` uses inside `query`. -/
def PageDB.maxVal (db : PageDB) (query : Nat) : ℚ :=
  mathMax (mathMaxSpread (db.pages.map (fun p => (PageDB.getFrequencyScore p query : ℚ)))) scoreFloor

/-- The entry of the result list that `query` builds for one page, if any. -/
def PageDB.resultFor (db : PageDB) (query : Nat) (p : Page) : Option Result :=
  if 0 < PageDB.getFrequencyScore p query then
    some { page := p, score := (PageDB.getFrequencyScore p query : ℚ) / db.maxVal query }
  else none

/-- The entries `f a` of `l.filterMap f`, each paired with the position of `a`
in `l`, positions counted from `n`. -/
def tagFrom {α β : Type} (f : α → Option β) : Nat → List α → List (β × Nat)
  | _, [] => []
  | n, a :: l =>
    match f a with
    | some b => (b, n) :: tagFrom f (n + 1) l
    | none => tagFrom f (n + 1) l

/-! ## Building an index from documents, and the scenario of the specification -/

/-- The calls that add the documents `(url, text)` one after the other. -/
def addAll (docs : List (String × String)) : List Op :=
  docs.map (fun d => Op.createPage d.1 d.2)

/-- The two documents of the scenario `a = "cat dog cat"`, `b = "dog dog dog"`. -/
def scenarioDocs : List (String × String) := [("a", "cat dog cat"), ("b", "dog dog dog")]

/-- The state after adding the two documents of the scenario. -/
def scenarioDB : PageDB := PageDB.new.run (addAll scenarioDocs)

/-! ## The search handler of `HomeController` -/

/-- Modelled from the spec: the class `Page` of `src/models/Page.js`, which is
not among the sources; a document `{url, rawText}` (spec §6) whose two fields
the controller reads back as `url` and `words`. -/
structure PageData where
  url : String
  words : String
deriving DecidableEq

/-- What the handler takes from outside: `String.prototype.toLowerCase`,
`fs.readdir` and `fs.readFile` (either may reject), and `path.join`. -/
structure Env where
  toLowerCase : String → String
  readdir : String → Except String (List String)
  readFile : String → Except String String
  join : String → String → String

/-- The observable steps of a search: reading a folder or a file, constructing
a `PageDB`, adding a page (which interns its tokens), interning the query term
and scoring. -/
inductive Effect where
  | readdir (path : String)
  | readFile (path : String)
  | newPageDB
  | createPage (url : String)
  | getIdForWord (word : String)
  | query (id : Nat)
deriving DecidableEq

/-- What the handler sends: `res.json({ searchResults })`, where `none` is
`null`, or `res.status(500).send(...)`. -/
inductive Response where
  | json (searchResults : Option (List Result))
  | status500
deriving DecidableEq

/-- The value of `s.replace(/\n/g, ' ')`. -/
def replaceNewlines (s : String) : String :=
  ⟨s.data.map (fun c => if c = '\n' then ' ' else c)⟩

/-- The loop `for (const file of files)` of `createPages`: the pages read, or
the first rejection, together with the reads attempted. -/
def readPages (env : Env) (folderPath : String) :
    List String → Except String (List PageData) × List Effect
  | [] => (Except.ok [], [])
  | file :: files =>
    let filePath := env.join folderPath file
    match env.readFile filePath with
    | Except.error e => (Except.error e, [Effect.readFile filePath])
    | Except.ok words =>
      let wordsToLowerCase := env.toLowerCase words
      let url := "https://wikipedia.com/wiki/" ++ file
      let page : PageData := { url := url, words := replaceNewlines wordsToLowerCase }
      let rest := readPages env folderPath files
      (rest.1.map (fun pages => page :: pages), Effect.readFile filePath :: rest.2)

/-- The function `createPages(folderPath, category)`. -/
def createPages (env : Env) (folderPath : String) (_category : String) :
    Except String (List PageData) × List Effect :=
  match env.readdir folderPath with
  | Except.error e => (Except.error e, [Effect.readdir folderPath])
  | Except.ok files =>
    let r := readPages env folderPath files
    (r.1, Effect.readdir folderPath :: r.2)

/-- The loops over `index` in `search`: every page of every category, in
order, is added with `createPage`. -/
def indexPages (index : List (List PageData)) (pageDB : PageDB) : PageDB :=
  index.foldl
    (fun db pages => pages.foldl (fun db pageData => db.createPage pageData.url pageData.words) db)
    pageDB

/-- The method `HomeController.search`: the response sent and the steps taken.
The argument is `req.body.searchQuery`; `none` stands for a value that is not
a string, on which `toLowerCase()` throws. -/
def HomeController.search (env : Env) (searchQuery : Option String) : Response × List Effect :=
  match searchQuery with
  | none => (Response.status500, [])
  | some searchQuery =>
    let query := env.toLowerCase searchQuery
    if searchQuery = "" then (Response.json none, [])
    else
      match createPages env "./wikipedia/Words/Games" "games" with
      | (Except.error _, log1) => (Response.status500, log1)
      | (Except.ok gamesPages, log1) =>
        match createPages env "./wikipedia/Words/Programming" "programming" with
        | (Except.error _, log2) => (Response.status500, log1 ++ log2)
        | (Except.ok programmingPages, log2) =>
          let index := [gamesPages, programmingPages]
          let pageDB := PageDB.new
          let pageDB := indexPages index pageDB
          let queryWordIds := pageDB.getIdForWord query
          let searchResults := queryWordIds.2.query queryWordIds.1
          (Response.json (some searchResults),
            log1 ++ log2 ++ [Effect.newPageDB] ++
              (gamesPages ++ programmingPages).map (fun pageData => Effect.createPage pageData.url) ++
              [Effect.getIdForWord query, Effect.query queryWordIds.1])

/-- A sample environment: one readable file per folder, ASCII lower-casing. -/
def sampleEnv : Env where
  toLowerCase := fun s => ⟨s.data.map Char.toLower⟩
  readdir := fun folder =>
    if folder = "./wikipedia/Words/Games" then Except.ok ["a"]
    else if folder = "./wikipedia/Words/Programming" then Except.ok ["b"]
    else Except.error "ENOENT"
  readFile := fun file =>
    if file = "./wikipedia/Words/Games/a" then Except.ok "Cat dog cat"
    else if file = "./wikipedia/Words/Programming/b" then Except.ok "dog DOG dog"
    else Except.error "ENOENT"
  join := fun folder file => folder ++ "/" ++ file

/-! ## Facts about the dictionary -/

theorem lookupEntry_append (k : String) (l m : List (String × Nat)) :
    lookupEntry k (l ++ m) = (lookupEntry k l).orElse (fun _ => lookupEntry k m) := by
  induction l with
  | nil => simp [lookupEntry]
  | cons e l ih =>
    obtain ⟨w, v⟩ := e
    by_cases h : w = k <;> simp [lookupEntry, h, ih]

theorem lookupEntry_append_of_some {k : String} {i : Nat} {l : List (String × Nat)}
    (h : lookupEntry k l = some i) (m : List (String × Nat)) :
    lookupEntry k (l ++ m) = some i := by
  simp [lookupEntry_append, h]

theorem setEntry_of_lookup_none {k : String} {l : List (String × Nat)} (v : Nat)
    (h : lookupEntry k l = none) : setEntry k v l = l ++ [(k, v)] := by
  induction l with
  | nil => rfl
  | cons e l ih =>
    obtain ⟨w, x⟩ := e
    by_cases hw : w = k
    · simp [lookupEntry, hw] at h
    · simp only [lookupEntry, hw, if_false] at h
      simp [setEntry, hw, ih h]

theorem lookupEntry_eq_none_iff {k : String} {l : List (String × Nat)} :
    lookupEntry k l = none ↔ k ∉ l.map Prod.fst := by
  induction l with
  | nil => simp [lookupEntry]
  | cons e l ih =>
    obtain ⟨w, x⟩ := e
    by_cases hw : w = k
    · simp [lookupEntry, hw]
    · simp [lookupEntry, hw, ih, Ne.symm hw]

theorem mem_of_lookupEntry {k : String} {i : Nat} {l : List (String × Nat)}
    (h : lookupEntry k l = some i) : (k, i) ∈ l := by
  induction l with
  | nil => simp [lookupEntry] at h
  | cons e l ih =>
    obtain ⟨w, x⟩ := e
    by_cases hw : w = k
    · simp [lookupEntry, hw] at h
      simp [hw, h]
    · simp only [lookupEntry, hw, if_false] at h
      exact List.mem_cons_of_mem _ (ih h)

theorem lookupEntry_of_mem {k : String} {i : Nat} {l : List (String × Nat)}
    (hnd : (l.map Prod.fst).Nodup) (h : (k, i) ∈ l) : lookupEntry k l = some i := by
  induction l with
  | nil => simp at h
  | cons e l ih =>
    obtain ⟨w, x⟩ := e
    simp only [List.map_cons, List.nodup_cons] at hnd
    rcases List.mem_cons.1 h with heq | hmem
    · simp only [Prod.mk.injEq] at heq
      simp [lookupEntry, heq.1, heq.2]
    · have hne : w ≠ k := by
        rintro rfl
        exact hnd.1 (List.mem_map.2 ⟨(w, i), hmem, rfl⟩)
      simp only [lookupEntry, hne, if_false]
      exact ih hnd.2 hmem

/-- What `getIdForWord` does, by cases on the presence of the word. -/
theorem getIdForWord_of_some {db : PageDB} {word : String} {id : Nat}
    (h : db.wordToId.get word = some id) : db.getIdForWord word = (id, db) := by
  simp [PageDB.getIdForWord, h]

theorem getIdForWord_of_none {db : PageDB} {word : String}
    (h : db.wordToId.get word = none) :
    db.getIdForWord word =
      (db.wordToId.size,
        { db with wordToId := ⟨db.wordToId.entries ++ [(word, db.wordToId.size)]⟩ }) := by
  have h2 : lookupEntry word db.wordToId.entries = none := h
  simp [PageDB.getIdForWord, h, JSMap.set, setEntry_of_lookup_none _ h2]

theorem Grows.refl (db : PageDB) : Grows db db := ⟨⟨[], by simp⟩, ⟨[], by simp⟩⟩

theorem Grows.trans {a b c : PageDB} (h1 : Grows a b) (h2 : Grows b c) : Grows a c := by
  obtain ⟨⟨m1, e1⟩, ⟨p1, q1⟩⟩ := h1
  obtain ⟨⟨m2, e2⟩, ⟨p2, q2⟩⟩ := h2
  exact ⟨⟨m1 ++ m2, by rw [e2, e1, List.append_assoc]⟩, ⟨p1 ++ p2, by rw [q2, q1, List.append_assoc]⟩⟩

theorem Grows.get {a b : PageDB} (h : Grows a b) {w : String} {i : Nat}
    (hg : a.wordToId.get w = some i) : b.wordToId.get w = some i := by
  obtain ⟨⟨m, e⟩, _⟩ := h
  unfold JSMap.get at *
  rw [e]
  exact lookupEntry_append_of_some hg m

theorem getIdForWord_pages (db : PageDB) (w : String) : (db.getIdForWord w).2.pages = db.pages := by
  unfold PageDB.getIdForWord
  cases db.wordToId.get w <;> rfl

theorem grows_getIdForWord (db : PageDB) (w : String) : Grows db (db.getIdForWord w).2 := by
  cases h : db.wordToId.get w with
  | some id => rw [getIdForWord_of_some h]; exact Grows.refl db
  | none =>
    rw [getIdForWord_of_none h]
    exact ⟨⟨_, rfl⟩, ⟨[], by simp⟩⟩

theorem get_getIdForWord (db : PageDB) (w : String) :
    (db.getIdForWord w).2.wordToId.get w = some (db.getIdForWord w).1 := by
  cases h : db.wordToId.get w with
  | some id => rw [getIdForWord_of_some h]; exact h
  | none =>
    rw [getIdForWord_of_none h]
    have h2 : lookupEntry w db.wordToId.entries = none := h
    simp [JSMap.get, lookupEntry_append, h2, lookupEntry]

theorem wf_getIdForWord {db : PageDB} (hwf : DictWF db) (w : String) :
    DictWF (db.getIdForWord w).2 := by
  cases h : db.wordToId.get w with
  | some id => rw [getIdForWord_of_some h]; exact hwf
  | none =>
    rw [getIdForWord_of_none h]
    obtain ⟨hk, hv, hp⟩ := hwf
    have h2 : lookupEntry w db.wordToId.entries = none := h
    refine ⟨?_, ?_, ?_⟩
    · simp only [List.map_append, List.map_cons, List.map_nil]
      rw [List.nodup_append]
      refine ⟨hk, List.nodup_singleton _, ?_⟩
      intro a ha hb
      simp only [List.mem_singleton] at hb
      subst hb
      exact (lookupEntry_eq_none_iff.1 h2) ha
    · simp only [List.map_append, List.map_cons, List.map_nil, JSMap.size, List.length_append,
        List.length_singleton, List.range_succ]
      rw [hv]; rfl
    · intro p hpm id hid
      have := hp p hpm id hid
      simp only [JSMap.size, List.length_append, List.length_singleton] at *
      omega

theorem DictWF.get_lt {db : PageDB} (hwf : DictWF db) {w : String} {i : Nat}
    (h : db.wordToId.get w = some i) : i < db.wordToId.size := by
  have hm := mem_of_lookupEntry h
  have : i ∈ db.wordToId.entries.map Prod.snd := List.mem_map.2 ⟨(w, i), hm, rfl⟩
  rw [hwf.2.1] at this
  exact List.mem_range.1 this

theorem DictWF.get_inj {db : PageDB} (hwf : DictWF db) {w1 w2 : String} {i : Nat}
    (h1 : db.wordToId.get w1 = some i) (h2 : db.wordToId.get w2 = some i) : w1 = w2 := by
  have hnd : (db.wordToId.entries.map Prod.snd).Nodup := by
    rw [hwf.2.1]; exact List.nodup_range _
  have := List.inj_on_of_nodup_map hnd (mem_of_lookupEntry h1) (mem_of_lookupEntry h2) rfl
  exact congrArg Prod.fst this

theorem DictWF.exists_get {db : PageDB} (hwf : DictWF db) {i : Nat}
    (h : i < db.wordToId.size) : ∃ w, db.wordToId.get w = some i := by
  have : i ∈ db.wordToId.entries.map Prod.snd := by
    rw [hwf.2.1]; exact List.mem_range.2 h
  obtain ⟨⟨w, j⟩, hm, hj⟩ := List.mem_map.1 this
  simp only at hj
  subst hj
  exact ⟨w, lookupEntry_of_mem hwf.1 hm⟩

/-- What mapping `getIdForWord` over an array yields. -/
theorem mapGetIdForWord_spec (ws : List String) (db : PageDB) :
    Grows db (db.mapGetIdForWord ws).2 ∧
    (db.mapGetIdForWord ws).2.pages = db.pages ∧
    (db.mapGetIdForWord ws).1.map some = ws.map (db.mapGetIdForWord ws).2.wordToId.get ∧
    (DictWF db → DictWF (db.mapGetIdForWord ws).2) := by
  induction ws generalizing db with
  | nil => exact ⟨Grows.refl db, rfl, rfl, id⟩
  | cons w ws ih =>
    obtain ⟨hg, hp, hm, hw⟩ := ih (db.getIdForWord w).2
    simp only [PageDB.mapGetIdForWord]
    refine ⟨(grows_getIdForWord db w).trans hg, ?_, ?_, ?_⟩
    · rw [hp, getIdForWord_pages]
    · simp only [List.map_cons, hm, List.cons.injEq, and_true]
      exact (hg.get (get_getIdForWord db w)).symm
    · intro hwf
      exact hw (wf_getIdForWord hwf w)

theorem createPage_pages (db : PageDB) (url words : String) :
    (db.createPage url words).pages =
      db.pages ++ [{ url := url, wordIds := (db.mapGetIdForWord (jsSplit words ' ')).1 }] := by
  simp [PageDB.createPage, (mapGetIdForWord_spec _ db).2.1]

theorem createPage_wordToId (db : PageDB) (url words : String) :
    (db.createPage url words).wordToId = (db.mapGetIdForWord (jsSplit words ' ')).2.wordToId := rfl

theorem grows_createPage (db : PageDB) (url words : String) : Grows db (db.createPage url words) := by
  refine ⟨?_, ⟨_, createPage_pages db url words⟩⟩
  rw [createPage_wordToId]
  exact (mapGetIdForWord_spec _ db).1.1

theorem wf_createPage {db : PageDB} (hwf : DictWF db) (url words : String) :
    DictWF (db.createPage url words) := by
  obtain ⟨_, hp, hm, hw⟩ := mapGetIdForWord_spec (jsSplit words ' ') db
  have hwf2 := hw hwf
  refine ⟨hwf2.1, hwf2.2.1, ?_⟩
  intro p hpm id hid
  rw [createPage_pages] at hpm
  rw [createPage_wordToId]
  rcases List.mem_append.1 hpm with h | h
  · exact hwf2.2.2 p (hp ▸ h) id hid
  · simp only [List.mem_singleton] at h
    subst h
    simp only at hid
    have : some id ∈ (db.mapGetIdForWord (jsSplit words ' ')).1.map some := List.mem_map.2 ⟨id, hid, rfl⟩
    rw [hm] at this
    obtain ⟨w, _, hw2⟩ := List.mem_map.1 this
    exact hwf2.get_lt hw2

theorem wf_new : DictWF PageDB.new := by
  refine ⟨by simp [PageDB.new, JSMap.empty], by simp [PageDB.new, JSMap.empty, JSMap.size], ?_⟩
  intro p hp
  simp [PageDB.new] at hp

theorem grows_apply (db : PageDB) (op : Op) : Grows db (Op.apply db op) := by
  cases op with
  | createPage url words => exact grows_createPage db url words
  | getIdForWord w => exact grows_getIdForWord db w

theorem wf_apply {db : PageDB} (hwf : DictWF db) (op : Op) : DictWF (Op.apply db op) := by
  cases op with
  | createPage url words => exact wf_createPage hwf url words
  | getIdForWord w => exact wf_getIdForWord hwf w

theorem grows_run (ops : List Op) (db : PageDB) : Grows db (db.run ops) := by
  induction ops generalizing db with
  | nil => exact Grows.refl db
  | cons op ops ih => exact (grows_apply db op).trans (ih _)

theorem wf_run (ops : List Op) {db : PageDB} (hwf : DictWF db) : DictWF (db.run ops) := by
  induction ops generalizing db with
  | nil => exact hwf
  | cons op ops ih => exact ih (wf_apply hwf op)

/-! ## Facts about scoring -/

theorem getFrequencyScore_eq_count (p : Page) (q : Nat) :
    PageDB.getFrequencyScore p q = p.wordIds.count q := by
  have key : ∀ (l : List Nat) (n : Nat),
      l.foldl (fun score word => if word = q then score + 1 else score) n = n + l.count q := by
    intro l
    induction l with
    | nil => intro n; simp
    | cons a l ih =>
      intro n
      by_cases h : a = q
      · subst h
        simp [List.foldl_cons, ih]; omega
      · have h2 : (a == q) = false := by simpa using h
        simp [List.foldl_cons, h, ih, List.count_cons, h2]
  simp [PageDB.getFrequencyScore, key]

theorem getFrequencyScore_pos_iff (p : Page) (q : Nat) :
    0 < PageDB.getFrequencyScore p q ↔ q ∈ p.wordIds := by
  rw [getFrequencyScore_eq_count]
  exact List.count_pos_iff

theorem scoreFloor_pos : 0 < scoreFloor := by unfold scoreFloor; norm_num

theorem scoreFloor_lt_one : scoreFloor < 1 := by unfold scoreFloor; norm_num

theorem mathMaxSpread_natCast (l : List Nat) (hl : l ≠ []) :
    ∃ m ∈ l, mathMaxSpread (List.map (fun n : ℕ => (n : ℚ)) l) = some (m : ℚ) ∧ ∀ x ∈ l, x ≤ m := by
  induction l with
  | nil => exact absurd rfl hl
  | cons a l ih =>
    by_cases hnil : l = []
    · subst hnil
      exact ⟨a, by simp, by simp [mathMaxSpread], by simp⟩
    · obtain ⟨m, hm, he, hle⟩ := ih hnil
      simp only [List.map_cons, mathMaxSpread, he]
      rcases le_total a m with h | h
      · refine ⟨m, List.mem_cons_of_mem _ hm, ?_, ?_⟩
        · have : (a : ℚ) ≤ (m : ℚ) := by exact_mod_cast h
          simp [max_eq_right this]
        · intro x hx
          rcases List.mem_cons.1 hx with rfl | hx
          · exact h
          · exact hle x hx
      · refine ⟨a, List.mem_cons_self _ _, ?_, ?_⟩
        · have : (m : ℚ) ≤ (a : ℚ) := by exact_mod_cast h
          simp [max_eq_left this]
        · intro x hx
          rcases List.mem_cons.1 hx with rfl | hx
          · exact le_refl _
          · exact le_trans (hle x hx) h

theorem maxVal_pos (db : PageDB) (q : Nat) : 0 < db.maxVal q := by
  unfold PageDB.maxVal mathMax
  split
  · exact scoreFloor_pos
  · exact lt_of_lt_of_le scoreFloor_pos (le_max_right _ _)

/-- When some page contains the query id, the divisor is the largest raw count. -/
theorem maxVal_of_mem (db : PageDB) (q : Nat) (h : ∃ p ∈ db.pages, q ∈ p.wordIds) :
    ∃ p ∈ db.pages, db.maxVal q = (PageDB.getFrequencyScore p q : ℚ) ∧
      0 < PageDB.getFrequencyScore p q ∧
      ∀ p' ∈ db.pages, PageDB.getFrequencyScore p' q ≤ PageDB.getFrequencyScore p q := by
  obtain ⟨p0, hp0, hq0⟩ := h
  have hne : db.pages.map (fun p => PageDB.getFrequencyScore p q) ≠ [] := by
    intro hnil
    rw [List.map_eq_nil_iff] at hnil
    rw [hnil] at hp0
    cases hp0
  obtain ⟨m, hm, he, hle⟩ := mathMaxSpread_natCast _ hne
  rw [List.map_map] at he
  obtain ⟨p, hp, rfl⟩ := List.mem_map.1 hm
  have hpos0 : 0 < PageDB.getFrequencyScore p0 q := (getFrequencyScore_pos_iff p0 q).2 hq0
  have hle0 := hle _ (List.mem_map.2 ⟨p0, hp0, rfl⟩)
  have hpos : 0 < PageDB.getFrequencyScore p q := lt_of_lt_of_le hpos0 hle0
  refine ⟨p, hp, ?_, hpos, fun p' hp' => hle _ (List.mem_map.2 ⟨p', hp', rfl⟩)⟩
  have hfun : (fun p => ((PageDB.getFrequencyScore p q : ℕ) : ℚ))
      = ((fun n : ℕ => (n : ℚ)) ∘ fun p => PageDB.getFrequencyScore p q) := rfl
  unfold PageDB.maxVal
  rw [hfun, he]
  simp only [mathMax]
  have h1 : (1 : ℚ) ≤ (PageDB.getFrequencyScore p q : ℚ) := by exact_mod_cast hpos
  exact max_eq_left (le_trans (le_of_lt scoreFloor_lt_one) h1)

theorem zip_map_self {α β : Type} (g : α → β) (l : List α) :
    l.zip (l.map g) = l.map (fun a => (a, g a)) := by
  induction l with
  | nil => rfl
  | cons a l ih => simp [ih]

/-- The result list of `query` before and after sorting. -/
theorem query_eq (db : PageDB) (q : Nat) :
    db.query q = jsSort (fun a b => b.score - a.score) (db.pages.filterMap (db.resultFor q)) := by
  unfold PageDB.query PageDB.normalize
  simp only [Bool.false_eq_true, if_false, List.map_map]
  congr 1
  rw [show (db.pages.map ((fun s => s / mathMax (mathMaxSpread (db.pages.map
      (fun p => (PageDB.getFrequencyScore p q : ℚ)))) scoreFloor) ∘
      fun p => (PageDB.getFrequencyScore p q : ℚ)))
    = db.pages.map (fun p => (PageDB.getFrequencyScore p q : ℚ) / db.maxVal q) from rfl]
  rw [zip_map_self, List.filterMap_map]
  apply List.filterMap_congr
  intro p _
  have hM := maxVal_pos db q
  simp only [Function.comp, PageDB.resultFor]
  by_cases hc : 0 < PageDB.getFrequencyScore p q
  · have : (0 : ℚ) < (PageDB.getFrequencyScore p q : ℚ) / db.maxVal q :=
      div_pos (by exact_mod_cast hc) hM
    simp only [gt_iff_lt, this, if_true, hc]
    norm_num
  · have h0 : PageDB.getFrequencyScore p q = 0 := by omega
    simp [h0]

theorem query_perm (db : PageDB) (q : Nat) :
    (db.query q).Perm (db.pages.filterMap (db.resultFor q)) := by
  rw [query_eq]
  exact List.perm_insertionSort _ _

theorem mem_query_iff (db : PageDB) (q : Nat) (r : Result) :
    r ∈ db.query q ↔ ∃ p ∈ db.pages, db.resultFor q p = some r := by
  rw [(query_perm db q).mem_iff, List.mem_filterMap]

/-! ## The claims about `query` -/

theorem resultFor_page {db : PageDB} {q : Nat} {p : Page} {r : Result}
    (h : db.resultFor q p = some r) :
    r.page = p ∧ 0 < PageDB.getFrequencyScore p q ∧
      r.score = (PageDB.getFrequencyScore p q : ℚ) / db.maxVal q := by
  unfold PageDB.resultFor at h
  split at h
  · rename_i hc
    simp only [Option.some.injEq] at h
    subst h
    exact ⟨rfl, hc, rfl⟩
  · cases h

theorem map_page_filterMap_resultFor (db : PageDB) (q : Nat) (l : List Page) :
    (l.filterMap (db.resultFor q)).map Result.page = l.filter (fun p => decide (q ∈ p.wordIds)) := by
  induction l with
  | nil => rfl
  | cons p l ih =>
    by_cases hq : q ∈ p.wordIds
    · have hc := (getFrequencyScore_pos_iff p q).2 hq
      simp [List.filterMap_cons, PageDB.resultFor, hc, hq, ih]
    · have hc : ¬ 0 < PageDB.getFrequencyScore p q := fun h => hq ((getFrequencyScore_pos_iff p q).1 h)
      simp [List.filterMap_cons, PageDB.resultFor, hc, hq, ih]

/-- C1: the pages of the result list of `query(q)` are, up to order and with
multiplicity, exactly the stored pages whose `wordIds` contain `q`: each such
page occurrence appears once and no page without `q` appears; every returned
score is positive. This holds in every state, in particular in those built by
`createPage` calls. -/
theorem query_pages_perm (db : PageDB) (q : Nat) :
    ((db.query q).map Result.page).Perm (db.pages.filter (fun p => decide (q ∈ p.wordIds))) ∧
    ((db.query q).length = (db.pages.filter (fun p => decide (q ∈ p.wordIds))).length) ∧
    ∀ r ∈ db.query q, q ∈ r.page.wordIds ∧ 0 < r.score := by
  have hperm : ((db.query q).map Result.page).Perm
      (db.pages.filter (fun p => decide (q ∈ p.wordIds))) := by
    rw [← map_page_filterMap_resultFor]
    exact (query_perm db q).map _
  refine ⟨hperm, ?_, ?_⟩
  · rw [← hperm.length_eq, List.length_map]
  · intro r hr
    obtain ⟨p, _, hres⟩ := (mem_query_iff db q r).1 hr
    obtain ⟨hpage, hc, hs⟩ := resultFor_page hres
    refine ⟨?_, ?_⟩
    · rw [hpage]; exact (getFrequencyScore_pos_iff p q).1 hc
    · rw [hs]; exact div_pos (by exact_mod_cast hc) (maxVal_pos db q)

/-- C2: when at least one page contains `q`, there is a largest raw count
`m` (attained by a page, and an upper bound of all pages' counts) and every
result of `query(q)` has score `rawScore / m`, the raw score being the number
of occurrences of `q` in the result's page. -/
theorem query_score_eq (db : PageDB) (q : Nat) (h : ∃ p ∈ db.pages, q ∈ p.wordIds) :
    ∃ m : Nat, 0 < m ∧
      (∃ p ∈ db.pages, p.wordIds.count q = m) ∧
      (∀ p ∈ db.pages, p.wordIds.count q ≤ m) ∧
      ∀ r ∈ db.query q, r.score = (r.page.wordIds.count q : ℚ) / (m : ℚ) := by
  obtain ⟨p, hp, hmax, hpos, hle⟩ := maxVal_of_mem db q h
  refine ⟨PageDB.getFrequencyScore p q, hpos, ⟨p, hp, (getFrequencyScore_eq_count p q).symm⟩, ?_, ?_⟩
  · intro p' hp'
    rw [← getFrequencyScore_eq_count]
    exact hle p' hp'
  · intro r hr
    obtain ⟨p', _, hres⟩ := (mem_query_iff db q r).1 hr
    obtain ⟨hpage, _, hs⟩ := resultFor_page hres
    rw [hs, hmax, hpage, getFrequencyScore_eq_count p' q]

theorem query_eq_nil_iff (db : PageDB) (q : Nat) :
    db.query q = [] ↔ ∀ p ∈ db.pages, PageDB.getFrequencyScore p q = 0 := by
  constructor
  · intro hnil p hp
    by_contra hne
    have hc : 0 < PageDB.getFrequencyScore p q := Nat.pos_of_ne_zero hne
    have : (⟨p, (PageDB.getFrequencyScore p q : ℚ) / db.maxVal q⟩ : Result) ∈ db.query q :=
      (mem_query_iff db q _).2 ⟨p, hp, by simp [PageDB.resultFor, hc]⟩
    rw [hnil] at this
    cases this
  · intro hall
    apply List.eq_nil_iff_forall_not_mem.2
    intro r hr
    obtain ⟨p, hp, hres⟩ := (mem_query_iff db q r).1 hr
    have := (resultFor_page hres).2.1
    rw [hall p hp] at this
    exact Nat.lt_irrefl 0 this

/-- C4: every score returned by `query(q)` lies in `(0, 1]`; a non-empty result
list has a result of score exactly `1`; and the result list is empty exactly
when every stored page has raw count `0` (in particular when there is no page). -/
theorem query_normalized (db : PageDB) (q : Nat) :
    (∀ r ∈ db.query q, 0 < r.score ∧ 0 ≤ r.score ∧ r.score ≤ 1) ∧
    (db.query q ≠ [] → ∃ r ∈ db.query q, r.score = 1) ∧
    (db.query q = [] ↔ ∀ p ∈ db.pages, PageDB.getFrequencyScore p q = 0) := by
  have hempty := query_eq_nil_iff db q
  refine ⟨?_, ?_, hempty⟩
  · intro r hr
    obtain ⟨p, hp, hres⟩ := (mem_query_iff db q r).1 hr
    obtain ⟨_, hc, hs⟩ := resultFor_page hres
    have hM := maxVal_pos db q
    have hpos : 0 < r.score := by rw [hs]; exact div_pos (by exact_mod_cast hc) hM
    refine ⟨hpos, le_of_lt hpos, ?_⟩
    obtain ⟨pm, _, hmax, _, hle⟩ :=
      maxVal_of_mem db q ⟨p, hp, (getFrequencyScore_pos_iff p q).1 hc⟩
    rw [hs, div_le_one hM, hmax]
    exact_mod_cast hle p hp
  · intro hne
    have hex : ∃ p ∈ db.pages, q ∈ p.wordIds := by
      by_contra hno
      apply hne
      rw [hempty]
      intro p hp
      by_contra h0
      exact hno ⟨p, hp, (getFrequencyScore_pos_iff p q).1 (Nat.pos_of_ne_zero h0)⟩
    obtain ⟨pm, hpm, hmax, hpos, _⟩ := maxVal_of_mem db q hex
    refine ⟨⟨pm, (PageDB.getFrequencyScore pm q : ℚ) / db.maxVal q⟩,
      (mem_query_iff db q _).2 ⟨pm, hpm, by simp [PageDB.resultFor, hpos]⟩, ?_⟩
    simp only
    rw [hmax]
    exact div_self (by exact_mod_cast (Nat.pos_iff_ne_zero.1 hpos))

/-! ## Stability of the sort -/

theorem map_fst_tagFrom {α β : Type} (f : α → Option β) (l : List α) (n : Nat) :
    (tagFrom f n l).map Prod.fst = l.filterMap f := by
  induction l generalizing n with
  | nil => rfl
  | cons a l ih =>
    cases h : f a <;> simp [tagFrom, h, List.filterMap_cons, ih]

theorem mem_tagFrom {α β : Type} (f : α → Option β) (l : List α) (n : Nat) (x : β × Nat)
    (hx : x ∈ tagFrom f n l) : n ≤ x.2 ∧ ∃ a, l[x.2 - n]? = some a ∧ f a = some x.1 := by
  induction l generalizing n with
  | nil => simp [tagFrom] at hx
  | cons a l ih =>
    have tail : x ∈ tagFrom f (n + 1) l → n ≤ x.2 ∧ ∃ a', (a :: l)[x.2 - n]? = some a' ∧ f a' = some x.1 := by
      intro hx'
      obtain ⟨hle, a', ha', hf⟩ := ih (n + 1) hx'
      refine ⟨by omega, a', ?_, hf⟩
      have : x.2 - n = (x.2 - (n + 1)) + 1 := by omega
      rw [this, List.getElem?_cons_succ]
      exact ha'
    cases h : f a with
    | none =>
      simp only [tagFrom, h] at hx
      exact tail hx
    | some b =>
      simp only [tagFrom, h, List.mem_cons] at hx
      rcases hx with rfl | hx
      · exact ⟨le_refl _, a, by simp, h⟩
      · exact tail hx

theorem pairwise_tagFrom {α β : Type} (f : α → Option β) (l : List α) (n : Nat) :
    (tagFrom f n l).Pairwise (fun x y => x.2 < y.2) := by
  induction l generalizing n with
  | nil => exact List.Pairwise.nil
  | cons a l ih =>
    cases h : f a with
    | none => simp only [tagFrom, h]; exact ih (n + 1)
    | some b =>
      simp only [tagFrom, h]
      refine List.Pairwise.cons ?_ (ih (n + 1))
      intro y hy
      have := (mem_tagFrom f l (n + 1) y hy).1
      simp only
      omega

/-- Inserting an element whose tag is below all tags of a list sorted by score
(descending) and then by tag keeps the list sorted that way. -/
theorem orderedInsert_lex {β : Type} (score : β → ℚ) (a : β × Nat) (l : List (β × Nat))
    (hl : l.Pairwise (fun x y => score y.1 ≤ score x.1 ∧ (score x.1 = score y.1 → x.2 < y.2)))
    (ha : ∀ y ∈ l, a.2 < y.2) :
    (l.orderedInsert (fun x y => score y.1 - score x.1 ≤ 0) a).Pairwise
      (fun x y => score y.1 ≤ score x.1 ∧ (score x.1 = score y.1 → x.2 < y.2)) := by
  induction l with
  | nil => simp
  | cons b l ih =>
    rw [List.pairwise_cons] at hl
    by_cases hab : score b.1 - score a.1 ≤ 0
    · rw [List.orderedInsert, if_pos hab]
      refine List.Pairwise.cons ?_ (List.pairwise_cons.2 hl)
      intro y hy
      have hba : score b.1 ≤ score a.1 := by linarith
      rcases List.mem_cons.1 hy with rfl | hy
      · exact ⟨hba, fun _ => ha _ (List.mem_cons_self _ _)⟩
      · exact ⟨le_trans (hl.1 y hy).1 hba, fun _ => ha _ (List.mem_cons_of_mem _ hy)⟩
    · rw [List.orderedInsert, if_neg hab]
      have hlt : score a.1 < score b.1 := by linarith
      refine List.Pairwise.cons ?_ (ih hl.2 (fun y hy => ha y (List.mem_cons_of_mem _ hy)))
      intro y hy
      rcases (List.mem_orderedInsert _).1 hy with rfl | hy
      · exact ⟨le_of_lt hlt, fun h => absurd h (ne_of_gt hlt)⟩
      · exact hl.1 y hy

theorem insertionSort_lex {β : Type} (score : β → ℚ) (l : List (β × Nat))
    (hl : l.Pairwise (fun x y => x.2 < y.2)) :
    (l.insertionSort (fun x y => score y.1 - score x.1 ≤ 0)).Pairwise
      (fun x y => score y.1 ≤ score x.1 ∧ (score x.1 = score y.1 → x.2 < y.2)) := by
  induction l with
  | nil => simp
  | cons a l ih =>
    rw [List.pairwise_cons] at hl
    rw [List.insertionSort]
    apply orderedInsert_lex score a _ (ih hl.2)
    intro y hy
    exact hl.1 y ((List.mem_insertionSort _).1 hy)

theorem zip_map_fst_snd {α β : Type} (l : List (α × β)) :
    (l.map Prod.fst).zip (l.map Prod.snd) = l := by
  induction l with
  | nil => rfl
  | cons a l ih => simp [ih]

/-- C3: the result list of `query(q)` is ordered by score, highest first, and
results of equal score keep the order in which their pages were added: there
are positions `ix` in `pages`, one per result and pointing at the result's page,
such that for any two results, the earlier one has a score at least as large
and, when the scores are equal, the smaller position. -/
theorem query_sorted_stable (db : PageDB) (q : Nat) :
    ∃ ix : List Nat, ix.length = (db.query q).length ∧
      (∀ x ∈ (db.query q).zip ix, db.pages[x.2]? = some x.1.page) ∧
      ((db.query q).zip ix).Pairwise
        (fun a b => a.1.score ≥ b.1.score ∧ (a.1.score = b.1.score → a.2 < b.2)) := by
  let T := tagFrom (db.resultFor q) 0 db.pages
  let S := T.insertionSort (fun x y => y.1.score - x.1.score ≤ 0)
  have hS : S.map Prod.fst = db.query q := by
    rw [query_eq, jsSort, ← map_fst_tagFrom (db.resultFor q) db.pages 0]
    exact List.map_insertionSort (fun x y : Result × Nat => y.1.score - x.1.score ≤ 0)
      (fun a b : Result => b.score - a.score ≤ 0) Prod.fst T (fun _ _ _ _ => Iff.rfl)
  have hzip : (db.query q).zip (S.map Prod.snd) = S := by
    rw [← hS]; exact zip_map_fst_snd S
  refine ⟨S.map Prod.snd, ?_, ?_, ?_⟩
  · rw [← hS, List.length_map, List.length_map]
  · rw [hzip]
    intro x hx
    have hxT : x ∈ T := (List.mem_insertionSort _).1 hx
    obtain ⟨_, p, hp, hres⟩ := mem_tagFrom _ _ _ _ hxT
    rw [(resultFor_page hres).1]
    simpa using hp
  · rw [hzip]
    exact insertionSort_lex Result.score T (pairwise_tagFrom _ _ _)

/-! ## The claims about the dictionary and about indexing -/

/-- C8: `getIdForWord(term)` on any state. If `term` is present it returns the
stored id and changes nothing; otherwise it returns the current size, and the
dictionary afterwards is the old one with the single entry `term ↦ size`
appended, so that the size grows by one and every earlier lookup is unchanged.
The pages are never modified, and a second call returns the same id and leaves
the state as the first call left it. The function is total. -/
theorem getIdForWord_contract (db : PageDB) (term : String) :
    (db.wordToId.has term = true →
      ∃ id, db.wordToId.get term = some id ∧ db.getIdForWord term = (id, db)) ∧
    (db.wordToId.has term = false →
      (db.getIdForWord term).1 = db.wordToId.size ∧
      (db.getIdForWord term).2.wordToId.entries =
        db.wordToId.entries ++ [(term, db.wordToId.size)] ∧
      (db.getIdForWord term).2.wordToId.size = db.wordToId.size + 1 ∧
      (db.getIdForWord term).2.wordToId.get term = some db.wordToId.size ∧
      ∀ w id, db.wordToId.get w = some id →
        (db.getIdForWord term).2.wordToId.get w = some id) ∧
    (db.getIdForWord term).2.pages = db.pages ∧
    (db.getIdForWord term).2.getIdForWord term =
      ((db.getIdForWord term).1, (db.getIdForWord term).2) := by
  refine ⟨?_, ?_, getIdForWord_pages db term, getIdForWord_of_some (get_getIdForWord db term)⟩
  · intro hhas
    cases h : db.wordToId.get term with
    | none => simp [JSMap.has, h] at hhas
    | some id => exact ⟨id, rfl, getIdForWord_of_some h⟩
  · intro hhas
    have h : db.wordToId.get term = none := by
      cases h : db.wordToId.get term with
      | none => rfl
      | some id => simp [JSMap.has, h] at hhas
    have hget := get_getIdForWord db term
    have hgrow := grows_getIdForWord db term
    rw [getIdForWord_of_none h] at hget hgrow ⊢
    refine ⟨rfl, rfl, by simp [JSMap.size], hget, fun w id hw => hgrow.get hw⟩

/-- C7: in every state reached from `new PageDB()` by calls of `getIdForWord`
and `createPage`, two words with the same id are the same word, the ids in use
are exactly the numbers below the dictionary size, and whatever calls follow,
a word keeps the id it has. -/
theorem dictionary_ids_injective_stable (ops : List Op) :
    (∀ w1 w2 i, (PageDB.new.run ops).wordToId.get w1 = some i →
      (PageDB.new.run ops).wordToId.get w2 = some i → w1 = w2) ∧
    (∀ i, i < (PageDB.new.run ops).wordToId.size ↔
      ∃ w, (PageDB.new.run ops).wordToId.get w = some i) ∧
    (∀ (more : List Op) w i, (PageDB.new.run ops).wordToId.get w = some i →
      ((PageDB.new.run ops).run more).wordToId.get w = some i) := by
  have hwf : DictWF (PageDB.new.run ops) := wf_run ops wf_new
  refine ⟨fun w1 w2 i h1 h2 => hwf.get_inj h1 h2, fun i => ⟨hwf.exists_get, ?_⟩, ?_⟩
  · rintro ⟨w, hw⟩
    exact hwf.get_lt hw
  · intro more w i hw
    exact (grows_run more _).get hw

theorem count_map_get {g : String → Option Nat} {t : String} {i : Nat} :
    ∀ (tokens : List String) (ids : List Nat), ids.map some = tokens.map g →
      (∀ w ∈ tokens, g w = some i ↔ w = t) → ids.count i = tokens.count t := by
  intro tokens
  induction tokens with
  | nil =>
    intro ids hmap _
    simp only [List.map_nil, List.map_eq_nil_iff] at hmap
    simp [hmap]
  | cons w ws ih =>
    intro ids hmap hiff
    cases ids with
    | nil => simp at hmap
    | cons j js =>
      simp only [List.map_cons, List.cons.injEq] at hmap
      have hrec := ih js hmap.2 (fun w' hw' => hiff w' (List.mem_cons_of_mem _ hw'))
      have hw := hiff w (List.mem_cons_self _ _)
      rw [← hmap.1] at hw
      simp only [Option.some.injEq] at hw
      by_cases hji : j = i
      · have hwt : w = t := hw.1 hji
        subst hji; subst hwt
        simp [hrec]
      · have hwt : ¬ w = t := fun h => hji (hw.2 h)
        have h1 : (j == i) = false := by simpa using hji
        have h2 : (w == t) = false := by simpa using hwt
        simp [List.count_cons, h1, h2, hrec]

/-- C5: take any state reached from `new PageDB()`, call `createPage(url, text)`
there, and continue with any further calls. The page stored by that call sits
at the position it was appended at, and for every term `t` its frequency score
for the id that `getIdForWord(t)` returns in the final state is the number of
tokens of `text` equal to `t`. -/
theorem frequency_score_eq_token_count (before after : List Op) (url text t : String) :
    ∃ p, (((PageDB.new.run before).createPage url text).run after).pages[
        (PageDB.new.run before).pages.length]? = some p ∧
      p.url = url ∧
      PageDB.getFrequencyScore p
        ((((PageDB.new.run before).createPage url text).run after).getIdForWord t).1 =
        (jsSplit text ' ').count t := by
  obtain ⟨_, hpages, hmap, _⟩ := mapGetIdForWord_spec (jsSplit text ' ') (PageDB.new.run before)
  have hwf : DictWF (((PageDB.new.run before).createPage url text).run after) :=
    wf_run after (wf_createPage (wf_run before wf_new) url text)
  have hgrow := grows_run after ((PageDB.new.run before).createPage url text)
  refine ⟨⟨url, ((PageDB.new.run before).mapGetIdForWord (jsSplit text ' ')).1⟩, ?_, rfl, ?_⟩
  · obtain ⟨_, more, hmore⟩ := hgrow
    rw [hmore, createPage_pages, List.append_assoc,
      List.getElem?_append_right (le_refl _), Nat.sub_self]
    simp
  · rw [getFrequencyScore_eq_count]
    simp only
    have hmap2 : ((PageDB.new.run before).mapGetIdForWord (jsSplit text ' ')).1.map some =
        (jsSplit text ' ').map (((PageDB.new.run before).createPage url text).run after).wordToId.get := by
      rw [hmap]
      apply List.map_congr_left
      intro w hw
      have hsome : some w ∈ (jsSplit text ' ').map some := List.mem_map.2 ⟨w, hw, rfl⟩
      have hin : ((PageDB.new.run before).mapGetIdForWord (jsSplit text ' ')).2.wordToId.get w ∈
          ((PageDB.new.run before).mapGetIdForWord (jsSplit text ' ')).1.map some := by
        rw [hmap]; exact List.mem_map.2 ⟨w, hw, rfl⟩
      obtain ⟨j, _, hj⟩ := List.mem_map.1 hin
      rw [← hj]
      exact (hgrow.get (by rw [createPage_wordToId]; exact hj.symm)).symm
    apply count_map_get _ _ hmap2
    intro w hw
    have hin : (((PageDB.new.run before).createPage url text).run after).wordToId.get w ∈
        ((PageDB.new.run before).mapGetIdForWord (jsSplit text ' ')).1.map some := by
      rw [hmap2]; exact List.mem_map.2 ⟨w, hw, rfl⟩
    obtain ⟨j, _, hj⟩ := List.mem_map.1 hin
    have hget := get_getIdForWord (((PageDB.new.run before).createPage url text).run after) t
    constructor
    · intro hwi
      cases ht : (((PageDB.new.run before).createPage url text).run after).wordToId.get t with
      | some i =>
        rw [getIdForWord_of_some ht] at hwi
        exact hwf.get_inj hwi ht
      | none =>
        rw [getIdForWord_of_none ht] at hwi
        exact absurd (hwf.get_lt hwi) (Nat.lt_irrefl _)
    · rintro rfl
      rw [← hj]
      rw [getIdForWord_of_some hj.symm]

/-! ## Facts about splitting -/

theorem splitChars_ne_nil (sep : Char) (cs : List Char) : splitChars sep cs ≠ [] := by
  cases cs with
  | nil => simp [splitChars]
  | cons c cs =>
    simp only [splitChars]
    split
    · simp
    · split <;> simp

theorem splitChars_cons_of_ne {sep c : Char} (h : c ≠ sep) (cs : List Char) :
    ∃ w ws, splitChars sep cs = w :: ws ∧ splitChars sep (c :: cs) = (c :: w) :: ws := by
  cases hs : splitChars sep cs with
  | nil => exact absurd hs (splitChars_ne_nil sep cs)
  | cons w ws => exact ⟨w, ws, rfl, by simp [splitChars, h, hs]⟩

theorem intercalate_splitChars (sep : Char) (cs : List Char) :
    [sep].intercalate (splitChars sep cs) = cs := by
  induction cs with
  | nil => simp [splitChars, List.intercalate]
  | cons c cs ih =>
    by_cases h : c = sep
    · subst h
      cases hs : splitChars c cs with
      | nil => exact absurd hs (splitChars_ne_nil c cs)
      | cons w ws =>
        rw [hs] at ih
        simp only [splitChars, if_true, hs]
        simpa [List.intercalate, List.intersperse] using ih
    · obtain ⟨w, ws, h1, h2⟩ := splitChars_cons_of_ne h cs
      rw [h1] at ih
      rw [h2]
      cases ws with
      | nil => simpa [List.intercalate, List.intersperse] using ih
      | cons v vs => simpa [List.intercalate, List.intersperse] using ih

theorem not_mem_of_mem_splitChars (sep : Char) (cs : List Char) :
    ∀ w ∈ splitChars sep cs, sep ∉ w := by
  induction cs with
  | nil => simp [splitChars]
  | cons c cs ih =>
    by_cases h : c = sep
    · subst h
      intro w hw
      simp only [splitChars, if_true, List.mem_cons] at hw
      rcases hw with rfl | hw
      · simp
      · exact ih w hw
    · obtain ⟨v, vs, h1, h2⟩ := splitChars_cons_of_ne h cs
      rw [h1] at ih
      rw [h2]
      intro w hw
      rcases List.mem_cons.1 hw with rfl | hw
      · intro hmem
        rcases List.mem_cons.1 hmem with heq | hmem
        · exact h heq.symm
        · exact ih v (List.mem_cons_self _ _) hmem
      · exact ih w (List.mem_cons_of_mem _ hw)

theorem length_splitChars (sep : Char) (cs : List Char) :
    (splitChars sep cs).length = cs.count sep + 1 := by
  induction cs with
  | nil => simp [splitChars]
  | cons c cs ih =>
    by_cases h : c = sep
    · subst h
      simp [splitChars, ih]
    · obtain ⟨v, vs, h1, h2⟩ := splitChars_cons_of_ne h cs
      rw [h1] at ih
      have hb : (c == sep) = false := by simpa using h
      rw [h2, List.count_cons, hb]
      simpa using ih

theorem map_data_jsSplit (s : String) (sep : Char) :
    (jsSplit s sep).map String.data = splitChars sep s.data := by
  simp [jsSplit, Function.comp_def]

/-- C9 (as amended): `createPage(url, text)` appends exactly one page at the end
of `pages`, leaving the earlier pages as they were; its `wordIds` are, in order
and with duplicates, the ids under which the tokens of `text` are interned
afterwards. The tokens are the pieces of `text` between its space characters:
joined by single spaces they give back `text`, there is one more token than
there are spaces, and no token contains a space. -/
theorem createPage_appends_split_ids (db : PageDB) (url text : String) :
    (∃ ids, (db.createPage url text).pages = db.pages ++ [{ url := url, wordIds := ids }] ∧
      ids.map some = (jsSplit text ' ').map (db.createPage url text).wordToId.get) ∧
    [' '].intercalate ((jsSplit text ' ').map String.data) = text.data ∧
    (jsSplit text ' ').length = text.data.count ' ' + 1 ∧
    ∀ w ∈ jsSplit text ' ', ' ' ∉ w.data := by
  refine ⟨⟨_, createPage_pages db url text, ?_⟩, ?_, ?_, ?_⟩
  · rw [createPage_wordToId]
    exact (mapGetIdForWord_spec _ db).2.2.1
  · rw [map_data_jsSplit]
    exact intercalate_splitChars ' ' text.data
  · rw [← List.length_map (jsSplit text ' ') String.data, map_data_jsSplit]
    exact length_splitChars ' ' text.data
  · intro w hw
    apply not_mem_of_mem_splitChars ' ' text.data
    rw [← map_data_jsSplit]
    exact List.mem_map.2 ⟨w, hw, rfl⟩

/-- C9 fails as stated: for a text with two consecutive spaces `createPage`
interns three tokens, the empty string among them, and for a text with a tab
between two words it interns one token that contains the tab. -/
theorem createPage_split_counterexample :
    (PageDB.new.createPage "u" "a  b").pages = [{ url := "u", wordIds := [0, 1, 2] }] ∧
    (PageDB.new.createPage "u" "a  b").wordToId.entries = [("a", 0), ("", 1), ("b", 2)] ∧
    (PageDB.new.createPage "u" "a\tb").pages = [{ url := "u", wordIds := [0] }] ∧
    (PageDB.new.createPage "u" "a\tb").wordToId.entries = [("a\tb", 0)] := by
  decide

/-! ## Terms that occur in no document -/

theorem get_getIdForWord_cases (db : PageDB) (w k : String) (i : Nat)
    (h : (db.getIdForWord w).2.wordToId.get k = some i) :
    db.wordToId.get k = some i ∨ k = w := by
  cases hw : db.wordToId.get w with
  | some id => rw [getIdForWord_of_some hw] at h; exact Or.inl h
  | none =>
    rw [getIdForWord_of_none hw] at h
    simp only [JSMap.get, lookupEntry_append] at h
    cases hk : lookupEntry k db.wordToId.entries with
    | some j =>
      rw [hk] at h
      exact Or.inl (by simpa [JSMap.get, hk] using h)
    | none =>
      rw [hk] at h
      by_cases hwk : w = k
      · exact Or.inr hwk.symm
      · simp [lookupEntry, hwk] at h

theorem get_mapGetIdForWord_cases (ws : List String) (db : PageDB) (k : String) (i : Nat)
    (h : (db.mapGetIdForWord ws).2.wordToId.get k = some i) :
    db.wordToId.get k = some i ∨ k ∈ ws := by
  induction ws generalizing db with
  | nil => exact Or.inl h
  | cons w ws ih =>
    simp only [PageDB.mapGetIdForWord] at h
    rcases ih _ h with h1 | h1
    · rcases get_getIdForWord_cases db w k i h1 with h2 | h2
      · exact Or.inl h2
      · exact Or.inr (h2 ▸ List.mem_cons_self _ _)
    · exact Or.inr (List.mem_cons_of_mem _ h1)

theorem get_run_addAll_cases (docs : List (String × String)) (db : PageDB) (k : String) (i : Nat)
    (h : (db.run (addAll docs)).wordToId.get k = some i) :
    db.wordToId.get k = some i ∨ ∃ d ∈ docs, k ∈ jsSplit d.2 ' ' := by
  induction docs generalizing db with
  | nil => exact Or.inl h
  | cons d docs ih =>
    simp only [addAll, List.map_cons, PageDB.run, List.foldl_cons, Op.apply] at h
    rcases ih (db.createPage d.1 d.2) h with h1 | ⟨e, he, hk⟩
    · rw [createPage_wordToId] at h1
      rcases get_mapGetIdForWord_cases _ db k i h1 with h2 | h2
      · exact Or.inl h2
      · exact Or.inr ⟨d, List.mem_cons_self _ _, h2⟩
    · exact Or.inr ⟨e, List.mem_cons_of_mem _ he, hk⟩

/-- C6: after adding any documents to a fresh `PageDB`, a term `t` that is a
token of none of them is absent from the dictionary; `getIdForWord(t)` then
returns a new id, the dictionary size before the call, under which `t` is
stored afterwards; `query` of that id returns the empty list; and every word
id stored in a page is below the id returned, hence below the dictionary size
at the time of the query. -/
theorem unseen_term_query_empty (docs : List (String × String)) (t : String)
    (h : ∀ d ∈ docs, t ∉ jsSplit d.2 ' ') :
    (PageDB.new.run (addAll docs)).wordToId.has t = false ∧
    ((PageDB.new.run (addAll docs)).getIdForWord t).1 =
      (PageDB.new.run (addAll docs)).wordToId.size ∧
    ((PageDB.new.run (addAll docs)).getIdForWord t).2.wordToId.get t =
      some ((PageDB.new.run (addAll docs)).getIdForWord t).1 ∧
    ((PageDB.new.run (addAll docs)).getIdForWord t).2.query
      ((PageDB.new.run (addAll docs)).getIdForWord t).1 = [] ∧
    ∀ p ∈ ((PageDB.new.run (addAll docs)).getIdForWord t).2.pages, ∀ id ∈ p.wordIds,
      id < ((PageDB.new.run (addAll docs)).getIdForWord t).1 ∧
      id < ((PageDB.new.run (addAll docs)).getIdForWord t).2.wordToId.size := by
  have hwf : DictWF (PageDB.new.run (addAll docs)) := wf_run _ wf_new
  have hnone : (PageDB.new.run (addAll docs)).wordToId.get t = none := by
    cases hg : (PageDB.new.run (addAll docs)).wordToId.get t with
    | none => rfl
    | some i =>
      rcases get_run_addAll_cases docs PageDB.new t i hg with h1 | ⟨d, hd, ht⟩
      · simp [PageDB.new, JSMap.empty, JSMap.get, lookupEntry] at h1
      · exact absurd ht (h d hd)
  have hid : ((PageDB.new.run (addAll docs)).getIdForWord t).1 =
      (PageDB.new.run (addAll docs)).wordToId.size := by
    rw [getIdForWord_of_none hnone]
  have hlt : ∀ p ∈ ((PageDB.new.run (addAll docs)).getIdForWord t).2.pages, ∀ id ∈ p.wordIds,
      id < ((PageDB.new.run (addAll docs)).getIdForWord t).1 := by
    intro p hp id hidm
    rw [getIdForWord_pages] at hp
    rw [hid]
    exact hwf.2.2 p hp id hidm
  refine ⟨by simp [JSMap.has, hnone], hid, get_getIdForWord _ t, ?_, ?_⟩
  · rw [query_eq_nil_iff]
    intro p hp
    rw [getFrequencyScore_eq_count]
    apply List.count_eq_zero.2
    intro hmem
    exact Nat.lt_irrefl _ (hlt p hp _ hmem)
  · intro p hp id hidm
    refine ⟨hlt p hp id hidm, ?_⟩
    have h1 := hlt p hp id hidm
    have h2 := (wf_getIdForWord hwf t).get_lt (get_getIdForWord _ t)
    omega

/-! ## The claim about the search handler -/

/-- C10: for the empty query text the handler answers `searchResults: null` and
takes no step at all: nothing is read, no `PageDB` is constructed, no term is
interned and nothing is scored. For a non-empty query text, once both folders
have been read, it answers with the result of `query` for the id under which
the lower-cased text, taken as one term, is interned in the `PageDB` built from
the pages read. -/
theorem search_contract (env : Env) :
    HomeController.search env (some "") = (Response.json none, []) ∧
    ∀ (searchQuery : String) (gamesPages programmingPages : List PageData),
      searchQuery ≠ "" →
      (createPages env "./wikipedia/Words/Games" "games").1 = Except.ok gamesPages →
      (createPages env "./wikipedia/Words/Programming" "programming").1 =
        Except.ok programmingPages →
      (HomeController.search env (some searchQuery)).1 =
        Response.json (some
          (((indexPages [gamesPages, programmingPages] PageDB.new).getIdForWord
              (env.toLowerCase searchQuery)).2.query
            ((indexPages [gamesPages, programmingPages] PageDB.new).getIdForWord
              (env.toLowerCase searchQuery)).1)) := by
  refine ⟨by simp [HomeController.search], ?_⟩
  intro searchQuery gamesPages programmingPages hne hg hp
  simp only [HomeController.search, if_neg hne]
  cases h1 : createPages env "./wikipedia/Words/Games" "games" with
  | mk r1 log1 =>
    rw [h1] at hg
    simp only at hg
    subst hg
    cases h2 : createPages env "./wikipedia/Words/Programming" "programming" with
    | mk r2 log2 =>
      rw [h2] at hp
      simp only at hp
      subst hp
      rfl

/-! ## The scenario of the specification -/

theorem scenarioDB_eq :
    scenarioDB =
      { wordToId := ⟨[("cat", 0), ("dog", 1)]⟩,
        pages := [{ url := "a", wordIds := [0, 1, 0] }, { url := "b", wordIds := [1, 1, 1] }] } := by
  decide

theorem scenario_query_dog :
    scenarioDB.query 1 =
      [{ page := { url := "b", wordIds := [1, 1, 1] }, score := 1 },
       { page := { url := "a", wordIds := [0, 1, 0] }, score := 1 / 3 }] := by
  rw [scenarioDB_eq]
  simp [PageDB.query, PageDB.getFrequencyScore, PageDB.normalize, mathMaxSpread, mathMax,
    scoreFloor, jsSort]
  norm_num

/-- Witness for C2 on the scenario: `"dog"` has id `1`, the query returns `b`
with score `1` and then `a` with score `1/3`, and the scores are raw counts
divided by the largest raw count. -/
theorem query_score_eq_witness :
    (∃ p ∈ scenarioDB.pages, 1 ∈ p.wordIds) ∧
    (scenarioDB.getIdForWord "dog").1 = 1 ∧
    scenarioDB.query 1 =
      [{ page := { url := "b", wordIds := [1, 1, 1] }, score := 1 },
       { page := { url := "a", wordIds := [0, 1, 0] }, score := 1 / 3 }] ∧
    ∃ m : Nat, 0 < m ∧
      (∃ p ∈ scenarioDB.pages, p.wordIds.count 1 = m) ∧
      (∀ p ∈ scenarioDB.pages, p.wordIds.count 1 ≤ m) ∧
      ∀ r ∈ scenarioDB.query 1, r.score = (r.page.wordIds.count 1 : ℚ) / (m : ℚ) :=
  ⟨by decide, by decide, scenario_query_dog, query_score_eq scenarioDB 1 (by decide)⟩

/-- Witness for C6 on the scenario: `"fish"` is a token of neither document,
it gets the new id `2`, and the query for it returns the empty list. -/
theorem unseen_term_query_empty_witness :
    (∀ d ∈ scenarioDocs, "fish" ∉ jsSplit d.2 ' ') ∧
    (scenarioDB.getIdForWord "fish").1 = 2 ∧
    (scenarioDB.getIdForWord "fish").2.query (scenarioDB.getIdForWord "fish").1 = [] :=
  ⟨by decide, by decide, (unseen_term_query_empty scenarioDocs "fish" (by decide)).2.2.2.1⟩

theorem sample_index_eq :
    (indexPages [[{ url := "https://wikipedia.com/wiki/a", words := "cat dog cat" }],
        [{ url := "https://wikipedia.com/wiki/b", words := "dog dog dog" }]] PageDB.new).getIdForWord
      (sampleEnv.toLowerCase "DOG") =
    (1, { wordToId := ⟨[("cat", 0), ("dog", 1)]⟩,
          pages := [{ url := "https://wikipedia.com/wiki/a", wordIds := [0, 1, 0] },
                    { url := "https://wikipedia.com/wiki/b", wordIds := [1, 1, 1] }] }) := by
  decide

theorem sample_query_eq :
    PageDB.query
        ({ wordToId := ⟨[("cat", 0), ("dog", 1)]⟩,
           pages := [{ url := "https://wikipedia.com/wiki/a", wordIds := [0, 1, 0] },
                     { url := "https://wikipedia.com/wiki/b", wordIds := [1, 1, 1] }] } : PageDB) 1 =
      [{ page := { url := "https://wikipedia.com/wiki/b", wordIds := [1, 1, 1] }, score := 1 },
       { page := { url := "https://wikipedia.com/wiki/a", wordIds := [0, 1, 0] }, score := 1 / 3 }] := by
  simp [PageDB.query, PageDB.getFrequencyScore, PageDB.normalize, mathMaxSpread, mathMax,
    scoreFloor, jsSort]
  norm_num

/-- Witness for C10 in the sample environment: both folders are read, the
query text `"DOG"` is lower-cased to `"dog"`, and the answer is the ranked list
of `query` for its id. -/
theorem search_contract_witness :
    "DOG" ≠ "" ∧
    (createPages sampleEnv "./wikipedia/Words/Games" "games").1 =
      Except.ok [{ url := "https://wikipedia.com/wiki/a", words := "cat dog cat" }] ∧
    (createPages sampleEnv "./wikipedia/Words/Programming" "programming").1 =
      Except.ok [{ url := "https://wikipedia.com/wiki/b", words := "dog dog dog" }] ∧
    (HomeController.search sampleEnv (some "DOG")).1 =
      Response.json (some
        [{ page := { url := "https://wikipedia.com/wiki/b", wordIds := [1, 1, 1] }, score := 1 },
         { page := { url := "https://wikipedia.com/wiki/a", wordIds := [0, 1, 0] },
           score := 1 / 3 }]) :=
  ⟨by decide, rfl, rfl,
    ((search_contract sampleEnv).2 "DOG"
        [{ url := "https://wikipedia.com/wiki/a", words := "cat dog cat" }]
        [{ url := "https://wikipedia.com/wiki/b", words := "dog dog dog" }]
        (by decide) rfl rfl).trans
      (by rw [sample_index_eq, sample_query_eq])⟩

end SearchEngine
